import Mathlib

/-!
Verification development for the metmar marine-weather service.

Strings are modelled as lists of characters.  Each definition mirrors one
function of the Go source: the text normalizer of serve.go, the two bulletin
formatters (serve.go and metmar.go), and the gale-warning timeline pipeline
of gale.go.  The standard-library sort called by the timeline extractor is
modelled by its documented contract (a sorted permutation, with no stability
guarantee), as a relation.
-/

/-- Character list of a string literal. -/
def lit (s : String) : List Char := s.data

/-- Go unicode.IsSpace: the White_Space code points, used by strings.TrimSpace. -/
def goIsSpace (c : Char) : Bool :=
  let n := c.toNat
  n = 0x20 || (0x9 ≤ n && n ≤ 0xd) || n = 0x85 || n = 0xa0 ||
  n = 0x1680 || (0x2000 ≤ n && n ≤ 0x200a) || n = 0x2028 || n = 0x2029 ||
  n = 0x202f || n = 0x205f || n = 0x3000

/-- Boolean list-prefix test (strings.HasPrefix shape, used to locate
pattern occurrences for Replace and Split). -/
def pref : List Char → List Char → Bool
  | [], _ => true
  | _ :: _, [] => false
  | a :: as, b :: bs => a == b && pref as bs

/-- The embedded line-break markup token replaced by serve.go htmlToText. -/
def brTok : List Char := lit "<br />"

/-- Scanner of strings.Replace: a positive first argument skips the
remaining characters of a matched token. -/
def replA : Nat → List Char → List Char
  | _ + 1, [] => []
  | skip + 1, _ :: rest => replA skip rest
  | 0, [] => []
  | 0, c :: rest =>
    if pref brTok (c :: rest) then '\n' :: replA 5 rest
    else c :: replA 0 rest

/-- strings.Replace(s, brTok, newline, -1): replace every non-overlapping
leftmost occurrence of the token by a newline. -/
def replaceBr (s : List Char) : List Char := replA 0 s

/-- strings.TrimSpace: drop White_Space characters from both ends. -/
def trimL (s : List Char) : List Char :=
  (((s.dropWhile goIsSpace).reverse.dropWhile goIsSpace)).reverse

/-- Scanner of the newline-run replacement: the flag records that the
previous character belonged to a newline run already rewritten. -/
def collNL : Bool → List Char → List Char
  | _, [] => []
  | inRun, c :: rest =>
    if c = '\n' then
      if inRun then collNL true rest else '\n' :: collNL true rest
    else c :: collNL false rest

/-- regexp \n+ replaced by a single newline: each maximal run of newlines
collapses to one. -/
def collapseNL (s : List Char) : List Char := collNL false s

/-- serve.go htmlToText: token to newline, trim, collapse newline runs. -/
def htmlToText (s : List Char) : List Char :=
  collapseNL (trimL (replaceBr s))

/-- Whether the line-break token still occurs anywhere in a list. -/
def hasBr (s : List Char) : Bool :=
  match s with
  | [] => false
  | _ :: rest => pref brTok s || hasBr rest

/-- n consecutive copies of the line-break token. -/
def brRep : Nat → List Char
  | 0 => []
  | n + 1 => brTok ++ brRep n

/-- No two consecutive newline characters anywhere. -/
def noTwoNL : List Char → Bool
  | [] => true
  | [_] => true
  | a :: b :: t => !(a == '\n' && b == '\n') && noTwoNL (b :: t)

/-- The first character, if any, is not whitespace. -/
def headOkB (s : List Char) : Bool :=
  match s.head? with
  | none => true
  | some c => !goIsSpace c

/-- The last character, if any, is not whitespace. -/
def lastOkB (s : List Char) : Bool :=
  match s.getLast? with
  | none => true
  | some c => !goIsSpace c

/-- No leading and no trailing whitespace. -/
def trimmedB (s : List Char) : Bool := headOkB s && lastOkB s

/-- The fixed sea-state marker splitting the combined wind-and-sea field. -/
def merTok : List Char := lit "MER :"

/-- Scanner of strings.Split: a positive first argument skips the
remaining characters of a matched marker. -/
def splitA : Nat → List Char → List (List Char)
  | _ + 1, [] => [[]]
  | skip + 1, _ :: rest => splitA skip rest
  | 0, [] => [[]]
  | 0, c :: rest =>
    if pref merTok (c :: rest) then [] :: splitA 4 rest
    else
      match splitA 0 rest with
      | [] => [[c]]
      | p :: ps => (c :: p) :: ps

/-- strings.Split(s, merTok): segments of s between the non-overlapping
leftmost occurrences of the marker. -/
def splitMer (s : List Char) : List (List Char) := splitA 0 s

/-- Number of occurrences of the marker (strings.Split yields one more
segment than occurrences). -/
def countMer (s : List Char) : Nat := (splitMer s).length - 1

/-- A wall-clock instant in UTC with the fields time.Parse produces from
the snapshot filename pattern. -/
structure DateTime where
  year : Nat
  month : Nat
  day : Nat
  hour : Nat
  minute : Nat
  second : Nat
deriving DecidableEq

/-- Gregorian leap-year rule. -/
def isLeap (y : Nat) : Bool := y % 4 = 0 && (y % 100 != 0 || y % 400 = 0)

/-- Length of one month. -/
def daysInMonth (y m : Nat) : Nat :=
  if m = 2 then (if isLeap y then 29 else 28)
  else if m = 4 ∨ m = 6 ∨ m = 9 ∨ m = 11 then 30
  else 31

/-- Days of the year strictly before month m. -/
def daysBeforeMonth (y m : Nat) : Nat :=
  (List.range (m - 1)).foldl (fun acc i => acc + daysInMonth y (i + 1)) 0

/-- time.Time.YearDay: one-based day within the year. -/
def DateTime.yearDay (d : DateTime) : Nat :=
  daysBeforeMonth d.year d.month + d.day

/-- Days of the proleptic Gregorian calendar strictly before year y. -/
def daysBeforeYear (y : Nat) : Nat :=
  365 * (y - 1) + (y - 1) / 4 - (y - 1) / 100 + (y - 1) / 400

/-- The instant as a second count, linearizing the calendar fields; two
UTC instants compare exactly as their second counts do. -/
def DateTime.toSec (d : DateTime) : Nat :=
  (daysBeforeYear d.year + daysBeforeMonth d.year d.month + (d.day - 1)) * 86400
    + d.hour * 3600 + d.minute * 60 + d.second

/-- time.Time.Before: strict comparison of instants. -/
def DateTime.before (a b : DateTime) : Bool := Nat.blt a.toSec b.toSec

/-- Decimal digits of a number, most significant first. -/
def natChars (n : Nat) : List Char := Nat.toDigits 10 n

/-- Zero-padded two-digit field of time.Format. -/
def pad2 (n : Nat) : List Char :=
  if n < 10 then '0' :: natChars n else natChars n

/-- Zero-padded four-digit year field of time.Format. -/
def pad4 (n : Nat) : List Char :=
  List.replicate (4 - (natChars n).length) '0' ++ natChars n

/-- time.Format with layout 2006-01-02 15:04:05. -/
def formatDT (d : DateTime) : List Char :=
  pad4 d.year ++ '-' :: pad2 d.month ++ '-' :: pad2 d.day ++
  ' ' :: pad2 d.hour ++ ':' :: pad2 d.minute ++ ':' :: pad2 d.second

/-- One snapshot file signal: warning number (zero when none was found in
the file text) and the timestamp parsed from the filename. -/
structure GaleWarning where
  number : Nat
  date : DateTime
deriving DecidableEq

/-- The gap-filling loop of extractWarningNumbers, threading the running
last-known positive warning number. -/
def gapFillAux (num : Nat) : List GaleWarning → List GaleWarning
  | [] => []
  | w :: rest =>
    if w.number ≠ 0 then w :: gapFillAux w.number rest
    else { w with number := num } :: gapFillAux num rest

/-- Gap-filling as performed after the sort, seeded with 1. -/
def gapFill (ws : List GaleWarning) : List GaleWarning := gapFillAux 1 ws

/-- The running last-known positive number after scanning a chronological
segment, from a given seed. -/
def runningNumber (seed : Nat) (ws : List GaleWarning) : Nat :=
  ws.foldl (fun acc w => if w.number ≠ 0 then w.number else acc) seed

/-- Non-strict chronological comparison of two entries, the negation of the
sort interface Less on swapped arguments. -/
def dateLe (a b : GaleWarning) : Prop := a.date.toSec ≤ b.date.toSec

/-- Strict chronological comparison of two entries. -/
def dateLt (a b : GaleWarning) : Prop := a.date.toSec < b.date.toSec

instance : DecidableRel dateLe := fun a b => Nat.decLe a.date.toSec b.date.toSec

instance : DecidableRel dateLt := fun a b => Nat.decLt a.date.toSec b.date.toSec

/-- Contract of the standard-library sort invoked on the collected entries:
the result is a permutation of the input, ordered by the Less relation on
dates.  The library documents no further behaviour; in particular the
order of entries with equal dates in the result is not constrained. -/
def sortSpec (l out : List GaleWarning) : Prop :=
  List.Perm out l ∧ List.Pairwise dateLe out

/-- extractWarningNumbers after the directory walk: some contract-conforming
sort of the walked entries, then gap-filling. -/
def extractRel (l out : List GaleWarning) : Prop :=
  ∃ s, sortSpec l s ∧ out = gapFill s

/-- January 1st, midnight, of the year of the given instant. -/
def jan1Of (now : DateTime) : DateTime := ⟨now.year, 1, 1, 0, 0, 0⟩

/-- serveGaleWarnings boundary augmentation: prepend a zero anchor at
January 1st when the timeline is empty or starts after it, then always
append an entry at the current instant carrying the last number. -/
def augmentWarnings (now : DateTime) (warnings : List GaleWarning) :
    List GaleWarning :=
  let jan1 := jan1Of now
  let ws :=
    match warnings with
    | [] => [⟨0, jan1⟩]
    | w :: _ => if jan1.before w.date then ⟨0, jan1⟩ :: warnings else warnings
  ws ++ [⟨(ws.getLastD ⟨0, jan1⟩).number, now⟩]

/-- One point of the plotted series (the float64 x and y coordinates are
modelled exactly, as rationals). -/
structure WarningOffset where
  x : ℚ
  y : ℚ
  date : List Char
  yearday : Nat
deriving DecidableEq

/-- The fixed epoch of the x axis. -/
def baseDate : DateTime := ⟨2016, 1, 1, 0, 0, 0⟩

/-- One rendered point of the main series. -/
def warningOffset (w : GaleWarning) : WarningOffset :=
  { x := ((w.date.toSec : ℚ) - (baseDate.toSec : ℚ)) / 86400
    y := (w.number : ℚ)
    date := formatDT w.date
    yearday := w.date.yearDay }

/-- The main plotted series. -/
def renderOffsets (ws : List GaleWarning) : List WarningOffset :=
  ws.map warningOffset

/-- The reference series, identical but with y replaced by the year day. -/
def renderRefs (ws : List GaleWarning) : List WarningOffset :=
  ws.map fun w =>
    let o := warningOffset w
    { o with y := (o.yearday : ℚ) }

instance {e a : Type} [DecidableEq e] [DecidableEq a] :
    DecidableEq (Except e a) := fun x y =>
  match x, y with
  | .ok u, .ok v =>
    if h : u = v then isTrue (by rw [h]) else isFalse (by simp [h])
  | .error u, .error v =>
    if h : u = v then isTrue (by rw [h]) else isFalse (by simp [h])
  | .ok _, .error _ => isFalse (by simp)
  | .error _, .ok _ => isFalse (by simp)

namespace B

/-- Region of the two-report coastal bulletin of serve.go, with its JSON
fields titreRegion, ventEtMer, houle, ts, visi. -/
structure Region where
  title : List Char
  situation : List Char
  observation : List Char
  windAndSea : List Char
  swell : List Char
  weather : List Char
  visibility : List Char
deriving DecidableEq

/-- Forecast horizon of the serve.go schema. -/
structure Echeance where
  title : List Char
  kind : List Char
  regions : List Region
deriving DecidableEq

/-- Top-level report object of the serve.go schema. -/
structure Report where
  title : List Char
  special : List Char
  header : List Char
  footer : List Char
  units : List Char
  echeances : List Echeance
deriving DecidableEq

/-- Canonical normalized record served to clients. -/
structure Forecast where
  id : List Char
  title : List Char
  content : List Char
deriving DecidableEq

/-- The region loop of serve.go formatReport: skip raw-empty parts, append
the normalized part and a newline for each of the others. -/
def emitParts : List (List Char) → List (List Char)
  | [] => []
  | part :: rest =>
    if part = [] then emitParts rest
    else trimL (htmlToText part) :: ['\n'] :: emitParts rest

/-- The content pieces one region contributes, in the order the parts
array of serve.go formatReport lists the fields. -/
def regionPieces (a : Region) : List (List Char) :=
  emitParts
    [a.situation, a.observation, a.windAndSea, a.swell, a.weather,
     a.visibility]

/-- The normalized paragraphs one region contributes, without the newline
separators. -/
def regionParas (a : Region) : List (List Char) :=
  [a.situation, a.observation, a.windAndSea, a.swell, a.weather,
   a.visibility].filterMap
    fun p => if p = [] then none else some (trimL (htmlToText p))

/-- Modelled from the spec: the per-region paragraph sequence the
specification claims, with visibility placed before the confidence and
weather field.  Written for comparison with regionParas. -/
def specClaimedParas (a : Region) : List (List Char) :=
  [a.situation, a.observation, a.windAndSea, a.swell, a.visibility,
   a.weather].filterMap
    fun p => if p = [] then none else some (trimL (htmlToText p))

/-- The content pieces one horizon contributes. -/
def echeancePieces (e : Echeance) : List (List Char) :=
  [lit "# ", e.title, lit "\n\n"] ++
    (e.regions.map regionPieces).flatten ++ [lit "\n\n"]

/-- serve.go formatReport: two reports expected, the second (coastal) one
is rendered. -/
def formatReport (reports : List Report) : Except (List Char) Forecast :=
  match reports with
  | [_, r] =>
    .ok
      { id := []
        title := r.title
        content :=
          ([r.title, lit "\n\n", htmlToText r.header, lit "\n",
            htmlToText r.footer, lit "\n\n", htmlToText r.special,
            lit "\n\n"] ++ (r.echeances.map echeancePieces).flatten).flatten }
  | rs => .error (lit "2 reports expected, go " ++ natChars rs.length)

end B

namespace A

/-- Region of the metmar.go schema, with its JSON fields situation,
observation, ventEtMer, houle, visi, indice. -/
structure Region where
  situation : List Char
  observation : List Char
  windAndSea : List Char
  waves : List Char
  visibility : List Char
  confidence : List Char
deriving DecidableEq

/-- Forecast horizon of the metmar.go schema. -/
structure Echeance where
  title : List Char
  areas : List Region
deriving DecidableEq

/-- Top-level bulletin of the metmar.go schema. -/
structure Bulletin where
  title : List Char
  special : List Char
  echeances : List Echeance
deriving DecidableEq

/-- The text the wif helper of metmar.go formatReport appends for one
field: nothing when the field is empty, otherwise the field with each
line-break token replaced by a newline, then a newline. -/
def wifStr (s : List Char) : List Char :=
  if s = [] then [] else replaceBr s ++ ['\n']

/-- The paragraphs the wif helper emits for one field. -/
def wifParas (s : List Char) : List (List Char) :=
  if s = [] then [] else [replaceBr s]

/-- The text emitted for the combined wind-and-sea field: split at the
sea-state marker when strings.Split yields exactly two parts, whole
otherwise. -/
def windSeaOut (ws : List Char) : List Char :=
  match splitMer ws with
  | [p0, p1] => wifStr p0 ++ wifStr (merTok ++ p1)
  | _ => wifStr ws

/-- The paragraphs emitted for the combined wind-and-sea field. -/
def windSeaParas (ws : List Char) : List (List Char) :=
  match splitMer ws with
  | [p0, p1] => wifParas p0 ++ wifParas (merTok ++ p1)
  | _ => wifParas ws

/-- The text one region contributes in metmar.go formatReport. -/
def regionOut (r : Region) : List Char :=
  wifStr r.situation ++ wifStr r.observation ++ windSeaOut r.windAndSea ++
  wifStr r.waves ++ wifStr r.visibility ++ wifStr r.confidence

/-- The text one horizon contributes in metmar.go formatReport. -/
def echeanceOut (e : Echeance) : List Char :=
  e.title ++ '\n' :: (e.areas.map regionOut).flatten ++ ['\n']

/-- metmar.go formatReport over one bulletin. -/
def formatReport (b : Bulletin) : List Char :=
  b.title ++ '\n' :: lit "Bulletin spécial: " ++ b.special ++ '\n' :: '\n' ::
  (b.echeances.map echeanceOut).flatten

end A

/-- Fixture region for the serve.go formatter, all six fields present and
pairwise distinct. -/
def exRegionB : B.Region :=
  ⟨lit "T", lit "S", lit "O", lit "W", lit "H", lit "TS", lit "VI"⟩

/-- Fixture coastal report with one horizon containing the fixture region. -/
def exReportB : B.Report :=
  ⟨lit "TTL", [], [], [], [], [⟨lit "E", lit "K", [exRegionB]⟩]⟩

/-- Fixture offshore report, ignored by the formatter. -/
def exBlankB : B.Report := ⟨[], [], [], [], [], []⟩

/-- Fixture report with an empty horizon list. -/
def exEmptyEchB : B.Report := ⟨lit "T2", [], [], [], [], []⟩

/-- Fixture timestamps of the gap-filling scenario of the specification. -/
def d0101 : DateTime := ⟨2016, 1, 1, 0, 0, 0⟩

def d0110 : DateTime := ⟨2016, 1, 10, 0, 0, 0⟩

def d0115 : DateTime := ⟨2016, 1, 15, 0, 0, 0⟩

/-- The three walked entries of the gap-filling scenario, in walk order. -/
def exGaleWalk : List GaleWarning := [⟨0, d0101⟩, ⟨36, d0110⟩, ⟨0, d0115⟩]

/-- A timestamp shared by two distinct walked entries. -/
def exDupDate : DateTime := ⟨2016, 1, 2, 3, 4, 5⟩

/-- Two entries with equal timestamps, in directory-walk order. -/
def exDupWalk : List GaleWarning := [⟨5, exDupDate⟩, ⟨7, exDupDate⟩]

/-- The same two entries in the opposite order. -/
def exDupOut : List GaleWarning := [⟨7, exDupDate⟩, ⟨5, exDupDate⟩]

/-- A wind-and-sea field containing the marker twice, both mid-string. -/
def exMerTwice : List Char := lit "a MER : b MER : c"

/-- Fixture current instant and earliest entry for boundary augmentation. -/
def exNow : DateTime := ⟨2016, 3, 5, 12, 0, 0⟩

def exFeb : GaleWarning := ⟨3, ⟨2016, 2, 1, 0, 0, 0⟩⟩

def exNow17 : DateTime := ⟨2017, 2, 1, 0, 0, 0⟩

theorem getLast?_mem_own : ∀ (l : List Char) (c : Char), l.getLast? = some c → c ∈ l
  | [], _, h => by simp at h
  | [a], c, h => by
    simp [List.getLast?] at h
    simp [h]
  | a :: b :: t, c, h => by
    rw [List.getLast?_cons_cons] at h
    exact List.mem_cons_of_mem a (getLast?_mem_own (b :: t) c h)

theorem head?_dropWhile_own (p : Char → Bool) :
    ∀ (l : List Char) (c : Char), (l.dropWhile p).head? = some c → p c = false := by
  intro l
  induction l with
  | nil => intro c h; simp at h
  | cons a t ih =>
    intro c h
    by_cases hp : p a
    · rw [List.dropWhile_cons_of_pos hp] at h
      exact ih c h
    · rw [List.dropWhile_cons_of_neg hp] at h
      simp at h
      subst h
      exact Bool.of_not_eq_true hp

theorem pref_ex : ∀ (p s : List Char), pref p s = true ↔ ∃ t, p ++ t = s
  | [], s => by simp [pref]
  | _ :: _, [] => by simp [pref]
  | a :: as, b :: bs => by
    simp only [pref, Bool.and_eq_true, beq_iff_eq]
    constructor
    · rintro ⟨rfl, h⟩
      obtain ⟨t, rfl⟩ := (pref_ex as bs).mp h
      exact ⟨t, rfl⟩
    · rintro ⟨t, ht⟩
      rw [List.cons_append] at ht
      injection ht with h1 h2
      exact ⟨h1, (pref_ex as bs).mpr ⟨t, h2⟩⟩

theorem replA_skip : ∀ (r : List Char) (k : Nat), replA k r = replA 0 (r.drop k)
  | _, 0 => by rw [List.drop_zero]
  | [], _ + 1 => by rfl
  | _ :: rest, k + 1 => replA_skip rest k

theorem replaceBr_cons_match (c : Char) (rest : List Char)
    (h : pref brTok (c :: rest) = true) :
    replaceBr (c :: rest) = '\n' :: replaceBr (rest.drop 5) := by
  show (if pref brTok (c :: rest) then '\n' :: replA 5 rest else c :: replA 0 rest) = _
  rw [if_pos h, replA_skip rest 5]
  rfl

theorem replaceBr_cons_nomatch (c : Char) (rest : List Char)
    (h : pref brTok (c :: rest) = false) :
    replaceBr (c :: rest) = c :: replaceBr rest := by
  show (if pref brTok (c :: rest) then '\n' :: replA 5 rest else c :: replA 0 rest) = _
  rw [if_neg (by simp [h])]
  rfl

theorem pref_brTok_head (c : Char) (rest : List Char) (h : c ≠ '<') :
    pref brTok (c :: rest) = false := by
  have h1 : pref brTok (c :: rest) = (('<' : Char) == c && pref (lit "br />") rest) := rfl
  rw [h1, beq_eq_false_iff_ne.mpr (Ne.symm h), Bool.false_and]

theorem replaceBr_cons_ne_lt (c : Char) (rest : List Char) (h : c ≠ '<') :
    replaceBr (c :: rest) = c :: replaceBr rest :=
  replaceBr_cons_nomatch c rest (pref_brTok_head c rest h)

theorem replaceBr_append_no_lt :
    ∀ (a s : List Char), (∀ x ∈ a, x ≠ '<') →
      replaceBr (a ++ s) = a ++ replaceBr s
  | [], s, _ => rfl
  | c :: a, s, h => by
    rw [List.cons_append,
      replaceBr_cons_ne_lt c (a ++ s) (h c (List.mem_cons_self c a)),
      replaceBr_append_no_lt a s (fun x hx => h x (List.mem_cons_of_mem c hx))]
    rfl

theorem replaceBr_brTok (t : List Char) :
    replaceBr (brTok ++ t) = '\n' :: replaceBr t := by
  have hb : brTok ++ t = '<' :: (lit "br />" ++ t) := rfl
  rw [hb, replaceBr_cons_match '<' (lit "br />" ++ t)
    ((pref_ex brTok ('<' :: (lit "br />" ++ t))).mpr ⟨t, rfl⟩)]
  have hlen : (lit "br />").length = 5 := rfl
  have hd : (lit "br />" ++ t).drop 5 = t := by
    rw [← hlen]
    exact List.drop_left _ _
  rw [hd]

theorem pref_replaceBr_transfer :
    ∀ (s p : List Char), (∀ c ∈ p, c ≠ '\n') →
      pref p (replaceBr s) = true → pref p s = true := by
  intro s
  induction s with
  | nil =>
    intro p _ h
    exact h
  | cons c rest ih =>
    intro p hnl h
    by_cases hm : pref brTok (c :: rest) = true
    · rw [replaceBr_cons_match c rest hm] at h
      match p, hnl, h with
      | [], _, _ => rfl
      | q :: p', hnl, h =>
        simp only [pref, Bool.and_eq_true, beq_iff_eq] at h
        exact absurd h.1 (hnl q (List.mem_cons_self q p'))
    · rw [replaceBr_cons_nomatch c rest (Bool.of_not_eq_true hm)] at h
      match p, hnl, h with
      | [], _, _ => rfl
      | q :: p', hnl, h =>
        simp only [pref, Bool.and_eq_true, beq_iff_eq] at h ⊢
        exact ⟨h.1, ih p' (fun x hx => hnl x (List.mem_cons_of_mem q hx)) h.2⟩

theorem brTok_newline_free : ∀ c ∈ brTok, c ≠ '\n' := by decide

theorem merTok_newline_free : ∀ c ∈ merTok, c ≠ '\n' := by decide

theorem merTok_no_lt : ∀ c ∈ merTok, c ≠ '<' := by decide

theorem pref_brTok_newline (x : List Char) : pref brTok ('\n' :: x) = false :=
  pref_brTok_head '\n' x (by decide)

theorem hasBr_replA : ∀ (s : List Char) (k : Nat), hasBr (replA k s) = false := by
  intro s
  induction s with
  | nil =>
    intro k
    cases k <;> rfl
  | cons c rest ih =>
    intro k
    cases k with
    | succ k' => exact ih k'
    | zero =>
      by_cases hm : pref brTok (c :: rest) = true
      · have he : replA 0 (c :: rest) = '\n' :: replA 5 rest := by
          show (if pref brTok (c :: rest) then '\n' :: replA 5 rest
            else c :: replA 0 rest) = _
          rw [if_pos hm]
        rw [he]
        show (pref brTok ('\n' :: replA 5 rest) || hasBr (replA 5 rest)) = false
        rw [pref_brTok_newline, ih 5, Bool.or_self]
      · have hm' := Bool.of_not_eq_true hm
        have he : replA 0 (c :: rest) = c :: replA 0 rest := by
          show (if pref brTok (c :: rest) then '\n' :: replA 5 rest
            else c :: replA 0 rest) = _
          rw [if_neg (by simp [hm'])]
        rw [he]
        show (pref brTok (c :: replA 0 rest) || hasBr (replA 0 rest)) = false
        rw [ih 0, Bool.or_false]
        by_contra hcon
        have hp : pref brTok (c :: replA 0 rest) = true :=
          Bool.of_not_eq_false hcon
        have : pref brTok (replaceBr (c :: rest)) = true := by
          rw [replaceBr_cons_nomatch c rest hm']
          exact hp
        have := pref_replaceBr_transfer (c :: rest) brTok brTok_newline_free this
        exact absurd this (by simp [hm'])

theorem hasBr_replaceBr (s : List Char) : hasBr (replaceBr s) = false :=
  hasBr_replA s 0

theorem replaceBr_ne_nil (s : List Char) (h : s ≠ []) : replaceBr s ≠ [] := by
  match s, h with
  | c :: rest, _ =>
    by_cases hm : pref brTok (c :: rest) = true
    · rw [replaceBr_cons_match c rest hm]
      exact List.cons_ne_nil _ _
    · rw [replaceBr_cons_nomatch c rest (Bool.of_not_eq_true hm)]
      exact List.cons_ne_nil _ _

theorem collNL_nil (b : Bool) : collNL b [] = [] := rfl

theorem collNL_cons_newline_true (rest : List Char) :
    collNL true ('\n' :: rest) = collNL true rest := by
  show (if ('\n' : Char) = '\n' then
    if True = True then collNL true rest else '\n' :: collNL true rest
    else '\n' :: collNL false rest) = _
  simp

theorem collNL_cons_newline_false (rest : List Char) :
    collNL false ('\n' :: rest) = '\n' :: collNL true rest := by
  simp [collNL]

theorem collNL_cons_other (b : Bool) (c : Char) (rest : List Char)
    (h : c ≠ '\n') : collNL b (c :: rest) = c :: collNL false rest := by
  simp [collNL, h]

theorem noTwoNL_cons (a : Char) (l : List Char) :
    noTwoNL (a :: l) =
      ((match l.head? with
        | none => true
        | some b => !(a == '\n' && b == '\n')) && noTwoNL l) := by
  cases l <;> simp [noTwoNL]

theorem collNL_true_head_ne :
    ∀ (s : List Char) (c : Char), (collNL true s).head? = some c → c ≠ '\n' := by
  intro s
  induction s with
  | nil => intro c h; simp [collNL_nil] at h
  | cons d rest ih =>
    intro c h
    by_cases hd : d = '\n'
    · subst hd
      rw [collNL_cons_newline_true] at h
      exact ih c h
    · rw [collNL_cons_other true d rest hd] at h
      simp at h
      subst h
      exact hd

theorem collNL_noTwoNL (s : List Char) : ∀ b, noTwoNL (collNL b s) = true := by
  induction s with
  | nil => intro b; rfl
  | cons c rest ih =>
    intro b
    by_cases hc : c = '\n'
    · subst hc
      cases b with
      | true =>
        rw [collNL_cons_newline_true]
        exact ih true
      | false =>
        rw [collNL_cons_newline_false, noTwoNL_cons]
        rw [ih true, Bool.and_true]
        cases hh : (collNL true rest).head? with
        | none => rfl
        | some b' =>
          have hb' := collNL_true_head_ne rest b' hh
          simp [hb']
    · rw [collNL_cons_other b c rest hc, noTwoNL_cons]
      rw [ih false, Bool.and_true]
      cases hh : (collNL false rest).head? with
      | none => rfl
      | some b' => simp [hc]

theorem goIsSpace_newline : goIsSpace '\n' = true := by decide

theorem lastOkB_cons_ne (a : Char) (l : List Char) (h : l ≠ []) :
    lastOkB (a :: l) = lastOkB l := by
  match l, h with
  | b :: t, _ =>
    show (match (a :: b :: t).getLast? with
      | none => true
      | some c => !goIsSpace c) = _
    rw [List.getLast?_cons_cons]
    rfl

theorem collNL_true_nil_iff (s : List Char) :
    collNL true s = [] ↔ ∀ c ∈ s, c = '\n' := by
  induction s with
  | nil => simp [collNL_nil]
  | cons c rest ih =>
    by_cases hc : c = '\n'
    · subst hc
      rw [collNL_cons_newline_true]
      simp [ih]
    · rw [collNL_cons_other true c rest hc]
      simp [hc]

theorem collNL_false_ne_nil (s : List Char) (h : s ≠ []) :
    collNL false s ≠ [] := by
  match s, h with
  | c :: rest, _ =>
    by_cases hc : c = '\n'
    · subst hc
      rw [collNL_cons_newline_false]
      exact List.cons_ne_nil _ _
    · rw [collNL_cons_other false c rest hc]
      exact List.cons_ne_nil _ _

theorem collNL_lastOk (s : List Char) :
    ∀ b, lastOkB s = true → lastOkB (collNL b s) = true := by
  induction s with
  | nil => intro b _; rfl
  | cons c rest ih =>
    intro b h
    by_cases hr : rest = []
    · subst hr
      have hc : c ≠ '\n' := by
        intro hc
        subst hc
        have : lastOkB ['\n'] = false := by decide
        rw [this] at h
        exact Bool.false_ne_true h
      rw [collNL_cons_other b c [] hc, collNL_nil]
      exact h
    · have h' : lastOkB rest = true := by
        rw [lastOkB_cons_ne c rest hr] at h
        exact h
      by_cases hc : c = '\n'
      · subst hc
        cases b with
        | true =>
          rw [collNL_cons_newline_true]
          exact ih true h'
        | false =>
          rw [collNL_cons_newline_false]
          have hne : collNL true rest ≠ [] := by
            intro hnil
            have hall := (collNL_true_nil_iff rest).mp hnil
            obtain ⟨d, hd⟩ : ∃ d, rest.getLast? = some d := by
              match rest, hr with
              | x :: t, _ => exact ⟨(x :: t).getLast (List.cons_ne_nil x t),
                  List.getLast?_eq_getLast_of_ne_nil (List.cons_ne_nil x t)⟩
            have hdnl := hall d (getLast?_mem_own rest d hd)
            subst hdnl
            have : lastOkB rest = !goIsSpace '\n' := by
              show (match rest.getLast? with
                | none => true
                | some c => !goIsSpace c) = _
              rw [hd]
            rw [this, goIsSpace_newline] at h'
            exact Bool.false_ne_true h'
          rw [lastOkB_cons_ne '\n' (collNL true rest) hne]
          exact ih true h'
      · rw [collNL_cons_other b c rest hc]
        have hne := collNL_false_ne_nil rest hr
        rw [lastOkB_cons_ne c (collNL false rest) hne]
        exact ih false h'

theorem collapseNL_head? (s : List Char) : (collapseNL s).head? = s.head? := by
  cases s with
  | nil => rfl
  | cons c rest =>
    by_cases hc : c = '\n'
    · subst hc
      rw [show collapseNL ('\n' :: rest) = '\n' :: collNL true rest from
        collNL_cons_newline_false rest]
      rfl
    · rw [show collapseNL (c :: rest) = c :: collNL false rest from
        collNL_cons_other false c rest hc]
      rfl

theorem dropWhile_eq_self_of_head (p : Char → Bool) (l : List Char)
    (h : ∀ c, l.head? = some c → p c = false) : l.dropWhile p = l := by
  cases l with
  | nil => rfl
  | cons c t =>
    have := h c rfl
    rw [List.dropWhile_cons_of_neg (by simp [this])]

theorem headOkB_iff (l : List Char) :
    headOkB l = true ↔ (∀ c, l.head? = some c → goIsSpace c = false) := by
  unfold headOkB
  cases hh : l.head? with
  | none => simp
  | some c => simp [Bool.not_eq_true']

theorem lastOkB_iff (l : List Char) :
    lastOkB l = true ↔ (∀ c, l.getLast? = some c → goIsSpace c = false) := by
  unfold lastOkB
  cases hh : l.getLast? with
  | none => simp
  | some c => simp [Bool.not_eq_true']

theorem trimL_headOk (s : List Char) : headOkB (trimL s) = true := by
  rw [headOkB_iff]
  intro c hc
  unfold trimL at hc
  rw [List.head?_reverse] at hc
  have hwne : (s.dropWhile goIsSpace).reverse.dropWhile goIsSpace ≠ [] := by
    intro hnil
    rw [hnil] at hc
    simp at hc
  obtain ⟨pre, hpre⟩ :
      ∃ pre, pre ++ (s.dropWhile goIsSpace).reverse.dropWhile goIsSpace
        = (s.dropWhile goIsSpace).reverse := List.dropWhile_suffix _
  have h2 : ((s.dropWhile goIsSpace).reverse).getLast? = some c := by
    rw [← hpre, List.getLast?_append_of_ne_nil pre hwne]
    exact hc
  rw [List.getLast?_reverse] at h2
  exact head?_dropWhile_own goIsSpace s c h2

theorem trimL_lastOk (s : List Char) : lastOkB (trimL s) = true := by
  rw [lastOkB_iff]
  intro c hc
  unfold trimL at hc
  rw [List.getLast?_reverse] at hc
  exact head?_dropWhile_own goIsSpace (s.dropWhile goIsSpace).reverse c hc

theorem trimL_trimmed (s : List Char) : trimmedB (trimL s) = true := by
  unfold trimmedB
  rw [trimL_headOk, trimL_lastOk]
  rfl

theorem trimL_decomp (s : List Char) : ∃ u v, u ++ trimL s ++ v = s := by
  obtain ⟨a, ha⟩ : ∃ a, a ++ s.dropWhile goIsSpace = s := List.dropWhile_suffix _
  obtain ⟨b, hb⟩ : ∃ b, b ++ (s.dropWhile goIsSpace).reverse.dropWhile goIsSpace
      = (s.dropWhile goIsSpace).reverse := List.dropWhile_suffix _
  refine ⟨a, b.reverse, ?_⟩
  have hrev : s.dropWhile goIsSpace = trimL s ++ b.reverse := by
    have := congrArg List.reverse hb
    rw [List.reverse_append, List.reverse_reverse] at this
    exact this.symm
  calc a ++ trimL s ++ b.reverse
      = a ++ (trimL s ++ b.reverse) := List.append_assoc a (trimL s) b.reverse
    _ = a ++ s.dropWhile goIsSpace := by rw [← hrev]
    _ = s := ha

theorem trimL_eq_self (s : List Char) (h1 : headOkB s = true)
    (h2 : lastOkB s = true) : trimL s = s := by
  unfold trimL
  have hu : s.dropWhile goIsSpace = s := by
    apply dropWhile_eq_self_of_head
    intro c hc
    unfold headOkB at h1
    rw [hc] at h1
    simp at h1
    simp [h1]
  rw [hu]
  have hw : s.reverse.dropWhile goIsSpace = s.reverse := by
    apply dropWhile_eq_self_of_head
    intro c hc
    rw [List.head?_reverse] at hc
    unfold lastOkB at h2
    rw [hc] at h2
    simp at h2
    simp [h2]
  rw [hw, List.reverse_reverse]

theorem noTwoNL_append_right :
    ∀ (a b : List Char), noTwoNL (a ++ b) = true → noTwoNL b = true := by
  intro a
  induction a with
  | nil => intro b h; exact h
  | cons x a' ih =>
    intro b h
    rw [List.cons_append, noTwoNL_cons, Bool.and_eq_true] at h
    exact ih b h.2

theorem noTwoNL_append_left :
    ∀ (a b : List Char), noTwoNL (a ++ b) = true → noTwoNL a = true := by
  intro a
  induction a with
  | nil => intro b _; rfl
  | cons x a' ih =>
    intro b h
    rw [List.cons_append, noTwoNL_cons, Bool.and_eq_true] at h
    rw [noTwoNL_cons, Bool.and_eq_true]
    refine ⟨?_, ih b h.2⟩
    cases ha' : a'.head? with
    | none => rfl
    | some y =>
      have hne : a' ≠ [] := by
        intro hnil
        rw [hnil] at ha'
        simp at ha'
      have : (a' ++ b).head? = some y := by
        rw [List.head?_append_of_ne_nil _ hne, ha']
      rw [this] at h
      exact h.1

theorem htmlToText_headOk (s : List Char) : headOkB (htmlToText s) = true := by
  rw [headOkB_iff]
  intro c hc
  unfold htmlToText at hc
  rw [collapseNL_head? (trimL (replaceBr s))] at hc
  exact (headOkB_iff (trimL (replaceBr s))).mp (trimL_headOk (replaceBr s)) c hc

theorem htmlToText_lastOk (s : List Char) : lastOkB (htmlToText s) = true :=
  collNL_lastOk (trimL (replaceBr s)) false (trimL_lastOk (replaceBr s))

theorem htmlToText_trimmed (s : List Char) : trimmedB (htmlToText s) = true := by
  unfold trimmedB
  rw [htmlToText_headOk, htmlToText_lastOk]
  rfl

theorem htmlToText_noTwoNL (s : List Char) : noTwoNL (htmlToText s) = true :=
  collNL_noTwoNL (trimL (replaceBr s)) false

theorem replaceBr_brRep :
    ∀ (n : Nat) (t : List Char),
      replaceBr (brRep n ++ t) = List.replicate n '\n' ++ replaceBr t
  | 0, t => rfl
  | n + 1, t => by
    show replaceBr (brTok ++ brRep n ++ t) = _
    rw [List.append_assoc, replaceBr_brTok, replaceBr_brRep n t]
    rfl

theorem collNL_true_replicate :
    ∀ (n : Nat) (t : List Char),
      collNL true (List.replicate n '\n' ++ t) = collNL true t
  | 0, _ => rfl
  | n + 1, t => by
    rw [List.replicate_succ, List.cons_append, collNL_cons_newline_true]
    exact collNL_true_replicate n t

theorem htmlToText_brRun (n : Nat) :
    htmlToText (lit "a" ++ brRep (n + 1) ++ lit "b") = lit "a\nb" := by
  have h1 : replaceBr (lit "a" ++ brRep (n + 1) ++ lit "b")
      = 'a' :: (List.replicate (n + 1) '\n' ++ ['b']) := by
    rw [List.append_assoc]
    rw [show lit "a" ++ (brRep (n + 1) ++ lit "b")
      = ['a'] ++ (brRep (n + 1) ++ lit "b") from rfl]
    rw [replaceBr_append_no_lt ['a'] _ (by decide), replaceBr_brRep]
    rfl
  unfold htmlToText
  rw [h1]
  have h2 : trimL ('a' :: (List.replicate (n + 1) '\n' ++ ['b']))
      = 'a' :: (List.replicate (n + 1) '\n' ++ ['b']) := by
    apply trimL_eq_self
    · rfl
    · rw [lastOkB_iff]
      intro c hc
      rw [show ('a' :: (List.replicate (n + 1) '\n' ++ ['b']))
        = ('a' :: List.replicate (n + 1) '\n') ++ ['b'] from by simp,
        List.getLast?_concat] at hc
      injection hc with hc
      subst hc
      rfl
  rw [h2]
  show collNL false ('a' :: ('\n' :: List.replicate n '\n' ++ ['b'])) = _
  rw [collNL_cons_other false 'a' _ (by decide), List.cons_append,
    collNL_cons_newline_false, collNL_true_replicate n ['b'],
    collNL_cons_other true 'b' [] (by decide), collNL_nil]
  rfl

theorem splitA_skip : ∀ (r : List Char) (k : Nat), splitA k r = splitA 0 (r.drop k)
  | _, 0 => by rw [List.drop_zero]
  | [], _ + 1 => by rfl
  | _ :: rest, k + 1 => splitA_skip rest k

theorem splitMer_nil : splitMer [] = [[]] := rfl

theorem splitMer_cons_match (c : Char) (rest : List Char)
    (h : pref merTok (c :: rest) = true) :
    splitMer (c :: rest) = [] :: splitMer (rest.drop 4) := by
  show (if pref merTok (c :: rest) then [] :: splitA 4 rest
    else match splitA 0 rest with
      | [] => [[c]]
      | p :: ps => (c :: p) :: ps) = _
  rw [if_pos h, splitA_skip rest 4]
  rfl

theorem splitMer_cons_nomatch (c : Char) (rest : List Char)
    (h : pref merTok (c :: rest) = false) :
    splitMer (c :: rest) =
      match splitMer rest with
      | [] => [[c]]
      | p :: ps => (c :: p) :: ps := by
  show (if pref merTok (c :: rest) then [] :: splitA 4 rest
    else match splitA 0 rest with
      | [] => [[c]]
      | p :: ps => (c :: p) :: ps) = _
  rw [if_neg (by simp [h])]
  rfl

theorem splitMer_ne_nil : ∀ s : List Char, splitMer s ≠ [] := by
  intro s
  induction s with
  | nil => exact List.cons_ne_nil _ _
  | cons c rest ih =>
    by_cases hm : pref merTok (c :: rest) = true
    · rw [splitMer_cons_match c rest hm]
      exact List.cons_ne_nil _ _
    · rw [splitMer_cons_nomatch c rest (Bool.of_not_eq_true hm)]
      cases hs : splitMer rest with
      | nil => exact List.cons_ne_nil _ _
      | cons p ps => exact List.cons_ne_nil _ _

theorem splitMer_head_ex :
    ∀ (s p : List Char) (rest : List (List Char)),
      splitMer s = p :: rest → ∃ t, p ++ t = s := by
  intro s
  induction s with
  | nil =>
    intro p rest h
    rw [splitMer_nil] at h
    injection h with h1 _
    exact ⟨[], by rw [← h1]; rfl⟩
  | cons c r ih =>
    intro p rest h
    by_cases hm : pref merTok (c :: r) = true
    · rw [splitMer_cons_match c r hm] at h
      injection h with h1 _
      exact ⟨c :: r, by rw [← h1]; rfl⟩
    · rw [splitMer_cons_nomatch c r (Bool.of_not_eq_true hm)] at h
      cases hs : splitMer r with
      | nil => exact absurd hs (splitMer_ne_nil r)
      | cons q qs =>
        rw [hs] at h
        injection h with h1 h2
        obtain ⟨t, ht⟩ := ih q qs hs
        exact ⟨t, by rw [← h1, List.cons_append, ht]⟩

theorem splitMer_empty_head (c : Char) (rest : List Char)
    (ps : List (List Char)) (h : splitMer (c :: rest) = [] :: ps) :
    pref merTok (c :: rest) = true := by
  by_contra hm
  rw [splitMer_cons_nomatch c rest (Bool.of_not_eq_true hm)] at h
  cases hs : splitMer rest with
  | nil => exact absurd hs (splitMer_ne_nil rest)
  | cons q qs =>
    rw [hs] at h
    injection h with h1 _
    exact List.cons_ne_nil c q h1

theorem splitMer_singleton :
    ∀ (s p : List Char), splitMer s = [p] → p = s := by
  intro s
  induction s with
  | nil =>
    intro p h
    rw [splitMer_nil] at h
    injection h with h1 _
    exact h1.symm
  | cons c r ih =>
    intro p h
    by_cases hm : pref merTok (c :: r) = true
    · rw [splitMer_cons_match c r hm] at h
      injection h with _ h2
      exact absurd h2 (splitMer_ne_nil _)
    · rw [splitMer_cons_nomatch c r (Bool.of_not_eq_true hm)] at h
      cases hs : splitMer r with
      | nil => exact absurd hs (splitMer_ne_nil r)
      | cons q qs =>
        rw [hs] at h
        injection h with h1 h2
        subst h2
        rw [← h1, ih q hs]

theorem runningNumber_cons (seed : Nat) (w : GaleWarning) (l : List GaleWarning) :
    runningNumber seed (w :: l) =
      runningNumber (if w.number ≠ 0 then w.number else seed) l := rfl

theorem gapFillAux_getElem? :
    ∀ (ws : List GaleWarning) (seed i : Nat),
      (gapFillAux seed ws)[i]? = (ws[i]?).map
        (fun w => if w.number ≠ 0 then w
          else { w with number := runningNumber seed (ws.take i) }) := by
  intro ws
  induction ws with
  | nil => intro seed i; simp [gapFillAux]
  | cons w rest ih =>
    intro seed i
    cases i with
    | zero =>
      by_cases hw : w.number ≠ 0
      · simp [gapFillAux, hw, runningNumber]
      · have hw0 : w.number = 0 := by omega
        simp [gapFillAux, hw0, runningNumber]
    | succ i' =>
      by_cases hw : w.number ≠ 0
      · simp only [gapFillAux, if_pos hw, List.getElem?_cons_succ, List.take_succ_cons,
          runningNumber_cons, if_pos hw]
        exact ih w.number i'
      · simp only [gapFillAux, if_neg hw, List.getElem?_cons_succ, List.take_succ_cons,
          runningNumber_cons, if_neg hw]
        exact ih seed i'

theorem gapFillAux_length :
    ∀ (ws : List GaleWarning) (seed : Nat),
      (gapFillAux seed ws).length = ws.length := by
  intro ws
  induction ws with
  | nil => intro seed; rfl
  | cons w rest ih =>
    intro seed
    by_cases hw : w.number ≠ 0
    · simp [gapFillAux, hw, ih]
    · simp [gapFillAux, hw, ih]

theorem gapFillAux_map_date :
    ∀ (ws : List GaleWarning) (seed : Nat),
      (gapFillAux seed ws).map (fun w => w.date) = ws.map (fun w => w.date) := by
  intro ws
  induction ws with
  | nil => intro seed; rfl
  | cons w rest ih =>
    intro seed
    by_cases hw : w.number ≠ 0
    · simp [gapFillAux, hw, ih]
    · simp [gapFillAux, hw, ih]

theorem sorted_perm_eq :
    ∀ (l : List GaleWarning), List.Pairwise dateLt l →
      ∀ s, List.Perm s l → List.Pairwise dateLe s → s = l := by
  intro l
  induction l with
  | nil =>
    intro _ s hperm _
    exact hperm.eq_nil
  | cons a l' ih =>
    intro hl s hperm hsort
    have hmem : a ∈ s := hperm.mem_iff.mpr (List.mem_cons_self a l')
    cases s with
    | nil => simp at hmem
    | cons b s' =>
      have hb : b ∈ a :: l' := hperm.subset (List.mem_cons_self b s')
      have hba : b = a := by
        rcases List.mem_cons.mp hb with h | h
        · exact h
        · have hab : dateLt a b := (List.pairwise_cons.mp hl).1 b h
          rcases List.mem_cons.mp hmem with h2 | h2
          · exact h2.symm
          · have hba' : dateLe b a := (List.pairwise_cons.mp hsort).1 a h2
            unfold dateLt at hab
            unfold dateLe at hba'
            omega
      subst hba
      have hperm' : List.Perm s' l' := hperm.cons_inv
      rw [ih (List.pairwise_cons.mp hl).2 s' hperm' (List.pairwise_cons.mp hsort).2]

theorem noTwoNL_trimL (y : List Char) (h : noTwoNL y = true) :
    noTwoNL (trimL y) = true := by
  obtain ⟨u, v, huv⟩ := trimL_decomp y
  rw [List.append_assoc] at huv
  rw [← huv] at h
  exact noTwoNL_append_left _ _ (noTwoNL_append_right _ _ h)

theorem emitParts_foldr :
    ∀ l : List (List Char),
      B.emitParts l =
        (l.filterMap fun p =>
          if p = [] then none else some (trimL (htmlToText p))).foldr
          (fun p acc => p :: ['\n'] :: acc) [] := by
  intro l
  induction l with
  | nil => rfl
  | cons p rest ih =>
    by_cases hp : p = []
    · simp [B.emitParts, hp, ih]
    · simp [B.emitParts, hp, ih]

theorem filterMap_if_eq_filter_map (l : List (List Char))
    (f : List Char → List Char) :
    (l.filterMap fun p => if p = [] then none else some (f p)) =
      (l.filter fun p => p ≠ []).map f := by
  induction l with
  | nil => rfl
  | cons p rest ih =>
    by_cases hp : p = []
    · simp [hp, ih]
    · simp [hp, ih]

/-- Claim C1: the specification places visibility before the confidence and
weather field, but serve.go formatReport lists the weather field before
visibility; on a region with all six fields present the emitted paragraph
sequence differs from the claimed one. -/
theorem regionOrder_counterexample :
    B.specClaimedParas exRegionB =
      [lit "S", lit "O", lit "W", lit "H", lit "VI", lit "TS"]
  ∧ B.regionParas exRegionB =
      [lit "S", lit "O", lit "W", lit "H", lit "TS", lit "VI"]
  ∧ B.formatReport [exBlankB, exReportB] = .ok ⟨[], lit "TTL",
      lit "TTL\n\n\n\n\n\n\n# E\n\nS\nO\nW\nH\nTS\nVI\n\n\n"⟩
  ∧ B.regionParas exRegionB ≠ B.specClaimedParas exRegionB :=
  ⟨by decide, by decide, by decide, by decide⟩

/-- Claim C1 (amended): for every region of a valid Variant B input the
decoder emits the raw-non-empty fields in the order situation, observation,
wind and sea (unsplit), swell, weather and confidence, visibility — each as
its own normalized paragraph followed by one newline, raw-empty fields
omitted entirely with no placeholder piece. -/
theorem regionParas_order (a : B.Region) :
    B.regionParas a =
      ([a.situation, a.observation, a.windAndSea, a.swell, a.weather,
        a.visibility].filter fun p => p ≠ []).map (fun p => trimL (htmlToText p))
  ∧ B.regionPieces a =
      (B.regionParas a).foldr (fun p acc => p :: ['\n'] :: acc) []
  ∧ ∀ p ∈ B.regionParas a, trimmedB p = true ∧ noTwoNL p = true := by
  refine ⟨filterMap_if_eq_filter_map _ _, emitParts_foldr _, ?_⟩
  intro p hp
  unfold B.regionParas at hp
  rw [List.mem_filterMap] at hp
  obtain ⟨q, _, hq⟩ := hp
  by_cases hqe : q = []
  · rw [if_pos hqe] at hq
    exact absurd hq (by simp)
  · rw [if_neg hqe] at hq
    injection hq with hq
    rw [← hq]
    exact ⟨trimL_trimmed _, noTwoNL_trimL _ (htmlToText_noTwoNL q)⟩

theorem regionParas_order_witness :
    trimmedB (lit "S") = true ∧ noTwoNL (lit "S") = true :=
  (regionParas_order exRegionB).2.2 (lit "S") (by decide)

/-- Claim C6 (confirmed): decoding fails with the actual element count in
the error for every report list whose length is not two, and every
two-element list decodes successfully, an empty horizon list included. -/
theorem formatReport_arity :
    (∀ rs : List B.Report, rs.length ≠ 2 →
      B.formatReport rs =
        .error (lit "2 reports expected, go " ++ natChars rs.length))
  ∧ ∀ r0 r1 : B.Report, ∃ f, B.formatReport [r0, r1] = .ok f := by
  constructor
  · intro rs h
    match rs with
    | [] => rfl
    | [_] => rfl
    | [_, _] => exact absurd rfl h
    | _ :: _ :: _ :: _ => rfl
  · intro r0 r1
    exact ⟨_, rfl⟩

theorem formatReport_arity_witness :
    (B.formatReport [] = .error (lit "2 reports expected, go " ++ natChars 0))
  ∧ ∃ f, B.formatReport [exEmptyEchB, exEmptyEchB] = .ok f :=
  ⟨formatReport_arity.1 [] (by decide),
   formatReport_arity.2 exEmptyEchB exEmptyEchB⟩

theorem pairwise_dateLe_of_map_date_eq :
    ∀ (l1 l2 : List GaleWarning),
      l1.map (fun w => w.date) = l2.map (fun w => w.date) →
      List.Pairwise dateLe l1 → List.Pairwise dateLe l2 := by
  intro l1
  induction l1 with
  | nil =>
    intro l2 h _
    cases l2 with
    | nil => exact List.Pairwise.nil
    | cons w2 t2 => simp at h
  | cons w t ih =>
    intro l2 h hp
    cases l2 with
    | nil => simp at h
    | cons w2 t2 =>
      simp only [List.map_cons, List.cons.injEq] at h
      rw [List.pairwise_cons] at hp ⊢
      refine ⟨?_, ih t2 h.2 hp.2⟩
      intro b2 hb2
      have : b2.date ∈ t2.map (fun w => w.date) := List.mem_map_of_mem _ hb2
      rw [← h.2] at this
      obtain ⟨b, hb, hdate⟩ := List.mem_map.mp this
      have := hp.1 b hb
      unfold dateLe at this ⊢
      rw [← h.1, ← hdate]
      exact this

/-- Claim C7 (confirmed): the text normalizer eliminates every line-break
token, N consecutive tokens become exactly one newline, and every output is
free of leading and trailing whitespace and of runs of two or more
consecutive newlines. -/
theorem htmlToText_normalizes :
    (∀ s : List Char,
      trimmedB (htmlToText s) = true ∧ noTwoNL (htmlToText s) = true)
  ∧ (∀ s : List Char, hasBr (replaceBr s) = false)
  ∧ ∀ n : Nat, htmlToText (lit "a" ++ brRep (n + 1) ++ lit "b") = lit "a\nb" :=
  ⟨fun s => ⟨htmlToText_trimmed s, htmlToText_noTwoNL s⟩,
   hasBr_replaceBr,
   htmlToText_brRun⟩

theorem htmlToText_normalizes_witness :
    (trimmedB (htmlToText (lit " x<br />y ")) = true
      ∧ noTwoNL (htmlToText (lit " x<br />y ")) = true)
  ∧ hasBr (replaceBr (lit "a<br /><br />b")) = false
  ∧ htmlToText (lit "a" ++ brRep 3 ++ lit "b") = lit "a\nb" :=
  ⟨htmlToText_normalizes.1 (lit " x<br />y "),
   htmlToText_normalizes.2.1 (lit "a<br /><br />b"),
   htmlToText_normalizes.2.2 2⟩

/-- Claim C9 (confirmed): gap-filling preserves the length, every
timestamp in position, and every entry whose number is positive; only the
numbers of zero entries change. -/
theorem gapFill_frame (ws : List GaleWarning) :
    (gapFill ws).length = ws.length
  ∧ (gapFill ws).map (fun w => w.date) = ws.map (fun w => w.date)
  ∧ ∀ i : Nat, ∀ w, ws[i]? = some w → w.number ≠ 0 →
      (gapFill ws)[i]? = some w := by
  refine ⟨gapFillAux_length ws 1, gapFillAux_map_date ws 1, ?_⟩
  intro i w hw hnum
  rw [gapFill, gapFillAux_getElem?, hw]
  simp [hnum]

theorem gapFill_frame_witness :
    (gapFill exGaleWalk)[1]? = some ⟨36, d0110⟩ :=
  (gapFill_frame exGaleWalk).2.2 1 ⟨36, d0110⟩ (by decide) (by decide)

/-- Claim C2 (confirmed): after sorting, gap-filling carries a running
last-known positive number seeded at 1, overwriting zero entries and
updating on positive ones; the chronological fixture with numbers 0, 36, 0
yields 1, 36, 36. -/
theorem gapFill_runningNumber :
    (∀ (ws : List GaleWarning) (i : Nat),
      (gapFill ws)[i]? = (ws[i]?).map
        (fun w => if w.number ≠ 0 then w
          else { w with number := runningNumber 1 (ws.take i) }))
  ∧ ∀ out, extractRel exGaleWalk out →
      out.map (fun w => w.number) = [1, 36, 36] := by
  constructor
  · intro ws i
    exact gapFillAux_getElem? ws 1 i
  · intro out hrel
    obtain ⟨s, ⟨hperm, hsort⟩, hout⟩ := hrel
    have hsorted : s = exGaleWalk :=
      sorted_perm_eq exGaleWalk (by decide) s hperm hsort
    rw [hsorted] at hout
    rw [hout]
    decide

theorem gapFill_runningNumber_witness :
    ((gapFill exGaleWalk)[2]? = ((exGaleWalk[2]?).map
      (fun w => if w.number ≠ 0 then w
        else { w with number := runningNumber 1 (exGaleWalk.take 2) })))
  ∧ (gapFill exGaleWalk).map (fun w => w.number) = [1, 36, 36] :=
  ⟨gapFill_runningNumber.1 exGaleWalk 2,
   gapFill_runningNumber.2 (gapFill exGaleWalk)
     ⟨exGaleWalk, ⟨List.Perm.refl _, by decide⟩, rfl⟩⟩

/-- Claim C3: the sort behind the extractor is sort.Sort, whose contract
does not constrain the relative order of entries with equal timestamps; a
contract-conforming extraction of two equal-timestamp entries reverses
their directory-walk order, refuting the claimed stable tie-break. -/
theorem extractRel_unstable_counterexample :
    extractRel exDupWalk exDupOut ∧ exDupOut ≠ exDupWalk :=
  ⟨⟨exDupOut, ⟨by decide, by decide⟩, by decide⟩, by decide⟩

/-- Claim C3 (amended): for every directory-walk order the extractor
returns a chronologically ascending (non-strict) sequence whose timestamps
are a permutation of the walked ones, with the length preserved; the
relative order of equal-timestamp entries is unspecified. -/
theorem extractRel_sorted_perm (l out : List GaleWarning)
    (h : extractRel l out) :
    List.Pairwise dateLe out
  ∧ List.Perm (out.map fun w => w.date) (l.map fun w => w.date)
  ∧ out.length = l.length := by
  obtain ⟨s, ⟨hperm, hsort⟩, hout⟩ := h
  subst hout
  refine ⟨?_, ?_, ?_⟩
  · exact pairwise_dateLe_of_map_date_eq s (gapFill s)
      (gapFillAux_map_date s 1).symm hsort
  · rw [show (gapFill s).map (fun w => w.date) = s.map (fun w => w.date)
      from gapFillAux_map_date s 1]
    exact hperm.map (fun w => w.date)
  · rw [show (gapFill s).length = s.length from gapFillAux_length s 1]
    exact hperm.length_eq

theorem extractRel_sorted_perm_witness :
    List.Pairwise dateLe (gapFill exGaleWalk)
  ∧ List.Perm ((gapFill exGaleWalk).map fun w => w.date)
      (exGaleWalk.map fun w => w.date)
  ∧ (gapFill exGaleWalk).length = exGaleWalk.length :=
  extractRel_sorted_perm exGaleWalk (gapFill exGaleWalk)
    ⟨exGaleWalk, ⟨List.Perm.refl _, by decide⟩, rfl⟩

theorem merTok_append_ne_nil (p : List Char) : merTok ++ p ≠ [] := by
  have h : merTok ++ p = 'M' :: (lit "ER :" ++ p) := rfl
  rw [h]
  exact List.cons_ne_nil _ _

theorem wifStr_foldr (s : List Char) :
    A.wifStr s = (A.wifParas s).foldr (fun p acc => p ++ '\n' :: acc) [] := by
  by_cases hs : s = []
  · simp [A.wifStr, A.wifParas, hs]
  · simp [A.wifStr, A.wifParas, hs]

/-- Claim C4: a field containing the sea-state marker twice, both
occurrences mid-string, is emitted as one unsplit paragraph rather than the
claimed two. -/
theorem windSeaParas_two_markers_counterexample :
    countMer exMerTwice = 2
  ∧ pref merTok exMerTwice = false
  ∧ A.windSeaParas exMerTwice = [exMerTwice]
  ∧ (A.windSeaParas exMerTwice).length ≠ 2 :=
  ⟨by decide, by decide, by decide, by decide⟩

/-- Claim C4 (amended): a wind-and-sea field containing the marker exactly
once, not at the start, is emitted as two distinct non-empty independently
normalized paragraphs — the text before the marker, then the marker
re-prepended to the text from the marker onward; a non-empty field without
the marker is emitted as one whole paragraph; each emitted paragraph is
followed by one newline in the report text. -/
theorem windSeaParas_single_marker_split :
    (∀ ws : List Char, countMer ws = 1 → pref merTok ws = false →
      ∃ p0 p1, splitMer ws = [p0, p1] ∧ p0 ≠ []
        ∧ A.windSeaParas ws = [replaceBr p0, replaceBr (merTok ++ p1)]
        ∧ replaceBr p0 ≠ replaceBr (merTok ++ p1)
        ∧ replaceBr p0 ≠ [] ∧ replaceBr (merTok ++ p1) ≠ []
        ∧ pref merTok (replaceBr (merTok ++ p1)) = true)
  ∧ (∀ ws : List Char, ws ≠ [] → countMer ws = 0 →
      A.windSeaParas ws = [replaceBr ws])
  ∧ ∀ ws : List Char, A.windSeaOut ws =
      (A.windSeaParas ws).foldr (fun p acc => p ++ '\n' :: acc) [] := by
  refine ⟨?_, ?_, ?_⟩
  · intro ws hc hp
    have hlen : (splitMer ws).length = 2 := by
      have hne := splitMer_ne_nil ws
      unfold countMer at hc
      cases hsm : splitMer ws with
      | nil => exact absurd hsm hne
      | cons p ps =>
        rw [hsm] at hc
        simp at hc
        simp [hc]
    obtain ⟨p0, p1, hsplit⟩ : ∃ p0 p1, splitMer ws = [p0, p1] := by
      cases hsm : splitMer ws with
      | nil => rw [hsm] at hlen; simp at hlen
      | cons p ps =>
        cases ps with
        | nil => rw [hsm] at hlen; simp at hlen
        | cons q qs =>
          cases qs with
          | nil => exact ⟨p, q, rfl⟩
          | cons r rs => rw [hsm] at hlen; simp at hlen
    have hwsne : ws ≠ [] := by
      intro hnil
      subst hnil
      rw [splitMer_nil] at hsplit
      injection hsplit with _ h2
      exact List.cons_ne_nil _ _ h2.symm
    have hp0 : p0 ≠ [] := by
      intro h0
      subst h0
      match ws, hwsne with
      | c :: rest, _ =>
        exact absurd (splitMer_empty_head c rest [p1] hsplit) (by simp [hp])
    have hpref2 : pref merTok (replaceBr (merTok ++ p1)) = true := by
      rw [replaceBr_append_no_lt merTok p1 merTok_no_lt]
      exact (pref_ex merTok (merTok ++ replaceBr p1)).mpr ⟨replaceBr p1, rfl⟩
    have hparas : A.windSeaParas ws =
        [replaceBr p0, replaceBr (merTok ++ p1)] := by
      unfold A.windSeaParas
      rw [hsplit]
      simp [A.wifParas, hp0, merTok_append_ne_nil p1]
    have hdist : replaceBr p0 ≠ replaceBr (merTok ++ p1) := by
      intro heq
      have h5 : pref merTok (replaceBr p0) = true := by
        rw [heq]
        exact hpref2
      have h6 : pref merTok p0 = true :=
        pref_replaceBr_transfer p0 merTok merTok_newline_free h5
      obtain ⟨u, hu⟩ := (pref_ex merTok p0).mp h6
      obtain ⟨t, ht⟩ := splitMer_head_ex ws p0 [p1] hsplit
      have h7 : pref merTok ws = true :=
        (pref_ex merTok ws).mpr ⟨u ++ t, by
          rw [← ht, ← hu, List.append_assoc]⟩
      exact absurd h7 (by simp [hp])
    exact ⟨p0, p1, hsplit, hp0, hparas, hdist, replaceBr_ne_nil p0 hp0,
      by
        rw [replaceBr_append_no_lt merTok p1 merTok_no_lt]
        exact merTok_append_ne_nil (replaceBr p1),
      hpref2⟩
  · intro ws hne hc
    have hlen : (splitMer ws).length = 1 := by
      have hnn := splitMer_ne_nil ws
      unfold countMer at hc
      cases hsm : splitMer ws with
      | nil => exact absurd hsm hnn
      | cons p ps =>
        rw [hsm] at hc
        simp at hc
        simp [hc]
    obtain ⟨p, hp⟩ : ∃ p, splitMer ws = [p] := by
      cases hsm : splitMer ws with
      | nil => rw [hsm] at hlen; simp at hlen
      | cons q qs =>
        cases qs with
        | nil => exact ⟨q, rfl⟩
        | cons r rs => rw [hsm] at hlen; simp at hlen
    have hpws : p = ws := splitMer_singleton ws p hp
    subst hpws
    unfold A.windSeaParas
    rw [hp]
    simp [A.wifParas, hne]
  · intro ws
    unfold A.windSeaOut A.windSeaParas
    cases hsm : splitMer ws with
    | nil => exact absurd hsm (splitMer_ne_nil ws)
    | cons p ps =>
      cases ps with
      | nil => exact wifStr_foldr ws
      | cons q qs =>
        cases qs with
        | nil =>
          show A.wifStr p ++ A.wifStr (merTok ++ q) = _
          rw [List.foldr_append, ← wifStr_foldr (merTok ++ q)]
          by_cases hp : p = []
          · simp [A.wifStr, A.wifParas, hp]
          · simp [A.wifStr, A.wifParas, hp]
        | cons r rs => exact wifStr_foldr ws

theorem windSeaParas_single_marker_split_witness :
    (∃ p0 p1, splitMer (lit "x MER : y") = [p0, p1] ∧ p0 ≠ []
      ∧ A.windSeaParas (lit "x MER : y") =
          [replaceBr p0, replaceBr (merTok ++ p1)]
      ∧ replaceBr p0 ≠ replaceBr (merTok ++ p1)
      ∧ replaceBr p0 ≠ [] ∧ replaceBr (merTok ++ p1) ≠ []
      ∧ pref merTok (replaceBr (merTok ++ p1)) = true)
  ∧ A.windSeaParas (lit "z") = [replaceBr (lit "z")] :=
  ⟨windSeaParas_single_marker_split.1 (lit "x MER : y") (by decide) (by decide),
   windSeaParas_single_marker_split.2.1 (lit "z") (by decide) (by decide)⟩

/-- Claim C10 (confirmed): the split happens only for exactly one marker
occurrence; two or more occurrences leave the field as one unsplit
paragraph, and a field beginning with its single marker yields only the one
marker paragraph, the empty pre-marker half being skipped. -/
theorem windSeaParas_split_only_once :
    (∀ ws : List Char, countMer ws ≥ 2 → A.windSeaParas ws = [replaceBr ws])
  ∧ ∀ ws : List Char, countMer ws = 1 → pref merTok ws = true →
      ∃ p1, splitMer ws = [[], p1]
        ∧ A.windSeaParas ws = [replaceBr (merTok ++ p1)] := by
  constructor
  · intro ws hc
    have hwsne : ws ≠ [] := by
      intro hnil
      subst hnil
      unfold countMer at hc
      rw [splitMer_nil] at hc
      simp at hc
    have hlen : (splitMer ws).length ≥ 3 := by
      have hnn := splitMer_ne_nil ws
      unfold countMer at hc
      cases hsm : splitMer ws with
      | nil => exact absurd hsm hnn
      | cons p ps =>
        rw [hsm] at hc
        simp at hc ⊢
        omega
    unfold A.windSeaParas
    cases hsm : splitMer ws with
    | nil => exact absurd hsm (splitMer_ne_nil ws)
    | cons p ps =>
      cases ps with
      | nil => rw [hsm] at hlen; simp at hlen
      | cons q qs =>
        cases qs with
        | nil => rw [hsm] at hlen; simp at hlen
        | cons r rs => simp [A.wifParas, hwsne]
  · intro ws hc hp
    cases ws with
    | nil => exact absurd hp (by decide)
    | cons c rest =>
      have hsplit := splitMer_cons_match c rest hp
      have hlen : (splitMer (rest.drop 4)).length = 1 := by
        unfold countMer at hc
        rw [hsplit] at hc
        simp at hc
        exact hc
      obtain ⟨p1, hp1⟩ : ∃ p1, splitMer (rest.drop 4) = [p1] := by
        cases hsm : splitMer (rest.drop 4) with
        | nil => exact absurd hsm (splitMer_ne_nil _)
        | cons a as =>
          cases as with
          | nil => exact ⟨a, rfl⟩
          | cons b bs => rw [hsm] at hlen; simp at hlen
      refine ⟨p1, ?_, ?_⟩
      · rw [hsplit, hp1]
      · unfold A.windSeaParas
        rw [hsplit, hp1]
        simp [A.wifParas, merTok_append_ne_nil p1]

theorem windSeaParas_split_only_once_witness :
    A.windSeaParas exMerTwice = [replaceBr exMerTwice]
  ∧ ∃ p1, splitMer (lit "MER : x") = [[], p1]
      ∧ A.windSeaParas (lit "MER : x") = [replaceBr (merTok ++ p1)] :=
  ⟨windSeaParas_split_only_once.1 exMerTwice (by decide),
   windSeaParas_split_only_once.2 (lit "MER : x") (by decide) (by decide)⟩

theorem getLast?_cons_concat {α : Type} (x e : α) (l : List α) :
    (x :: (l ++ [e])).getLast? = some e := by
  rw [← List.cons_append]
  exact List.getLast?_concat _

/-- Claim C5 (confirmed): when the gap-filled timeline starts after January
1st of the current year, rendering prepends a synthetic zero entry dated
January 1st (left at zero) and always appends an entry dated now carrying
the last number; the first rendered point has year day 1 and y 0, the last
carries the date formatted now and the last number. -/
theorem augmentWarnings_boundary (now : DateTime) (w : GaleWarning)
    (ws : List GaleWarning) (h : (jan1Of now).before w.date = true) :
    augmentWarnings now (w :: ws) =
      (⟨0, jan1Of now⟩ :: (w :: ws)) ++
        [⟨((w :: ws).getLastD w).number, now⟩]
  ∧ (renderOffsets (augmentWarnings now (w :: ws))).head?.map
      (fun p => (p.yearday, p.y)) = some (1, 0)
  ∧ (renderOffsets (augmentWarnings now (w :: ws))).getLast?.map
      (fun p => (p.date, p.y)) =
      some (formatDT now, (((w :: ws).getLastD w).number : ℚ)) := by
  have haug : augmentWarnings now (w :: ws) =
      (⟨0, jan1Of now⟩ :: (w :: ws)) ++
        [⟨((w :: ws).getLastD w).number, now⟩] := by
    simp only [augmentWarnings]
    rw [if_pos h]
    simp only [List.getLastD_cons]
  refine ⟨haug, ?_, ?_⟩
  · rw [haug]
    simp [renderOffsets, warningOffset, DateTime.yearDay, daysBeforeMonth,
      jan1Of]
  · rw [haug]
    simp [renderOffsets, warningOffset, List.map_append,
      getLast?_cons_concat]

theorem augmentWarnings_boundary_witness :
    augmentWarnings exNow [exFeb] =
      (⟨0, jan1Of exNow⟩ :: [exFeb]) ++
        [⟨([exFeb].getLastD exFeb).number, exNow⟩]
  ∧ (renderOffsets (augmentWarnings exNow [exFeb])).head?.map
      (fun p => (p.yearday, p.y)) = some (1, 0)
  ∧ (renderOffsets (augmentWarnings exNow [exFeb])).getLast?.map
      (fun p => (p.date, p.y)) =
      some (formatDT exNow, (([exFeb].getLastD exFeb).number : ℚ)) :=
  augmentWarnings_boundary exNow exFeb [] (by decide)

/-- Claim C8 (confirmed): a directory yielding no entries renders exactly
two points, the January-1st zero anchor and a zero point dated now; in
general the augmented series is never empty and its last entry is always
dated now. -/
theorem augmentWarnings_empty_series (now : DateTime)
    (sorted : List GaleWarning) (h : sortSpec [] sorted) :
    augmentWarnings now (gapFill sorted) = [⟨0, jan1Of now⟩, ⟨0, now⟩]
  ∧ (renderOffsets (augmentWarnings now (gapFill sorted))).map
      (fun p => (p.yearday, p.y)) = [(1, 0), (now.yearDay, 0)]
  ∧ ∀ ws : List GaleWarning, augmentWarnings now ws ≠ []
      ∧ (augmentWarnings now ws).getLast?.map (fun w => w.date) = some now := by
  have hnil : sorted = [] := h.1.eq_nil
  subst hnil
  refine ⟨rfl, ?_, ?_⟩
  · rw [show augmentWarnings now (gapFill []) =
      [⟨0, jan1Of now⟩, ⟨0, now⟩] from rfl]
    simp [renderOffsets, warningOffset, DateTime.yearDay, daysBeforeMonth,
      jan1Of]
  · intro ws
    cases ws with
    | nil =>
      exact ⟨by simp [augmentWarnings], rfl⟩
    | cons w t =>
      by_cases hb : (jan1Of now).before w.date = true
      · exact ⟨by simp [augmentWarnings, hb],
          by simp [augmentWarnings, hb, getLast?_cons_concat]⟩
      · exact ⟨by simp [augmentWarnings, hb],
          by simp [augmentWarnings, hb, getLast?_cons_concat]⟩

theorem augmentWarnings_empty_series_witness :
    augmentWarnings exNow17 (gapFill []) =
      [⟨0, jan1Of exNow17⟩, ⟨0, exNow17⟩]
  ∧ augmentWarnings exNow17 [] ≠ []
  ∧ (augmentWarnings exNow17 []).getLast?.map (fun w => w.date) =
      some exNow17 :=
  ⟨(augmentWarnings_empty_series exNow17 []
      ⟨List.Perm.refl _, List.Pairwise.nil⟩).1,
   ((augmentWarnings_empty_series exNow17 []
      ⟨List.Perm.refl _, List.Pairwise.nil⟩).2.2 []).1,
   ((augmentWarnings_empty_series exNow17 []
      ⟨List.Perm.refl _, List.Pairwise.nil⟩).2.2 []).2⟩
